import Mathlib

/-!
Verification of the template rendering engine of `src/lib.rs`
(`render_template`, `render_block`, `resolve`, `truthy`, `as_display`).

Templates and the rendered output are modelled as lists of characters; the
renderer below is a direct translation of the left-to-right scanning loop of
`render_block`, written with the remaining suffix of the template passed
explicitly (the Rust code keeps a byte index `i` into the fixed template; the
branches only ever inspect `template[i..]`, so passing the suffix is the same
program).  A separate byte-level model of the index arithmetic is used to
check UTF-8 boundary safety of the scanner.
-/

namespace CmcTop

/-- Model of `serde_json::Value`, the rendering context value tree.  Numbers
are modelled as integers; the display form of a number is its decimal text. -/
inductive Value : Type where
  | null : Value
  | bool (b : Bool) : Value
  | num (n : Int) : Value
  | str (s : List Char) : Value
  | arr (items : List Value) : Value
  | obj (fields : List (List Char × Value)) : Value

/-- Model of `Value::get` with a string key (used by `resolve`): member lookup
on a mapping, nothing on every other variant. -/
def getMember (v : Value) (key : List Char) : Option Value :=
  match v with
  | Value.obj fields => (fields.find? (fun p => p.1 == key)).map Prod.snd
  | _ => none

/-- Translation of `fn resolve(local, root, key)` of `src/lib.rs`: an empty
key resolves to nothing; otherwise the local scope is consulted first and the
root is the fallback. -/
def resolve (lo : Option Value) (root : Value) (key : List Char) : Option Value :=
  if key.isEmpty then none
  else
    match lo.bind (fun v => getMember v key) with
    | some v => some v
    | none => getMember root key

/-- Translation of `fn truthy(v: Option<&Value>)` of `src/lib.rs`. -/
def truthy (v : Option Value) : Bool :=
  match v with
  | none => false
  | some Value.null => false
  | some (Value.str s) => !s.isEmpty
  | some _ => true

/-- Hexadecimal digit characters used by the JSON string escaper. -/
def hexDigit (n : Nat) : Char :=
  if n < 10 then Char.ofNat (48 + n) else Char.ofNat (87 + n)

/-- JSON string escaping as performed by `serde_json`'s compact serializer:
quote, backslash and the named control characters get two-character escapes,
any other control character becomes a lowercase hexadecimal escape. -/
def escapeJsonChar (c : Char) : List Char :=
  if c = Char.ofNat 34 then [Char.ofNat 92, Char.ofNat 34]
  else if c = Char.ofNat 92 then [Char.ofNat 92, Char.ofNat 92]
  else if c = Char.ofNat 8 then [Char.ofNat 92, 'b']
  else if c = Char.ofNat 9 then [Char.ofNat 92, 't']
  else if c = Char.ofNat 10 then [Char.ofNat 92, 'n']
  else if c = Char.ofNat 12 then [Char.ofNat 92, 'f']
  else if c = Char.ofNat 13 then [Char.ofNat 92, 'r']
  else if c.toNat < 32 then
    [Char.ofNat 92, 'u', '0', '0', hexDigit (c.toNat / 16), hexDigit (c.toNat % 16)]
  else [c]

/-- Compact JSON serialization, `serde_json::Value::to_string` (the
implementation-defined textual form used by `as_display` for sequences and
mappings). -/
def jsonToString : Value → List Char
  | Value.null => ['n', 'u', 'l', 'l']
  | Value.bool b => if b then ['t', 'r', 'u', 'e'] else ['f', 'a', 'l', 's', 'e']
  | Value.num n => (toString n).toList
  | Value.str s => Char.ofNat 34 :: s.flatMap escapeJsonChar ++ [Char.ofNat 34]
  | Value.arr items =>
      '[' :: List.intercalate [','] (items.attach.map (fun it => jsonToString it.1)) ++ [']']
  | Value.obj fields =>
      Char.ofNat 123 ::
        List.intercalate [','] (fields.attach.map (fun p =>
          (Char.ofNat 34 :: p.1.1.flatMap escapeJsonChar ++ [Char.ofNat 34, ':'])
            ++ jsonToString p.1.2)) ++ [Char.ofNat 125]
decreasing_by
  · have h1 := List.sizeOf_lt_of_mem it.2
    have h3 : sizeOf (Value.arr items) = 1 + sizeOf items := by simp
    omega
  · have h1 := List.sizeOf_lt_of_mem p.2
    have h2 : sizeOf p.1.2 < sizeOf p.1 := by
      obtain ⟨⟨k, v⟩, hm⟩ := p
      simp
    have h3 : sizeOf (Value.obj fields) = 1 + sizeOf fields := by simp
    omega

/-- Translation of `fn as_display(v: &Value)` of `src/lib.rs`. -/
def as_display (v : Value) : Option (List Char) :=
  match v with
  | Value.null => none
  | Value.str s => some s
  | Value.num n => some (toString n).toList
  | Value.bool b => some (if b then ['t', 'r', 'u', 'e'] else ['f', 'a', 'l', 's', 'e'])
  | Value.arr _ => some (jsonToString v)
  | Value.obj _ => some (jsonToString v)

/-- Unicode white-space test, as used by Rust's `str::trim`. -/
def isWs (c : Char) : Bool :=
  decide ((9 ≤ c.toNat ∧ c.toNat ≤ 13) ∨ c.toNat = 32 ∨ c.toNat = 133 ∨
    c.toNat = 160 ∨ c.toNat = 5760 ∨ (8192 ≤ c.toNat ∧ c.toNat ≤ 8202) ∨
    c.toNat = 8232 ∨ c.toNat = 8233 ∨ c.toNat = 8239 ∨ c.toNat = 8287 ∨
    c.toNat = 12288)

/-- Rust's `str::trim`: strip white space from both ends. -/
def trim (s : List Char) : List Char :=
  ((s.dropWhile isWs).reverse.dropWhile isWs).reverse

/-- First index at which `pat` occurs as a contiguous sub-list of `t`
(the model of Rust's `str::find`, which reports the first match position of a
pattern scanning left to right). -/
def findSubstr {α : Type} [BEq α] (pat : List α) (t : List α) : Option Nat :=
  match t with
  | [] => if pat.isEmpty then some 0 else none
  | _ :: rest =>
    if pat.isPrefixOf t then some 0 else (findSubstr pat rest).map (fun k => k + 1)

/-- Splitting a substitution token at the first pipe character, the model of
`token.splitn(2, '|')` followed by the two `parts.next()` calls: the first
component is the text before the first pipe (the whole token when there is no
pipe), the second is the entire remainder after that pipe (empty when there is
no pipe). -/
def splitPipe (token : List Char) : List Char × List Char :=
  match findSubstr ['|'] token with
  | none => (token, [])
  | some p => (token.take p, token.drop (p + 1))

def pct : List Char := ['%']

def pctPct : List Char := ['%', '%']

def eachOpen : List Char := ['%', 'E', 'A', 'C', 'H', ' ']

def endEach : List Char := ['%', 'E', 'N', 'D', '_', 'E', 'A', 'C', 'H', '%']

def ifOpen : List Char := ['%', 'I', 'F', ' ']

def endIf : List Char := ['%', 'E', 'N', 'D', '_', 'I', 'F', '%']

/-- One dispatch step of `render_block` of `src/lib.rs`, parametrized by the
function `r` used for the recursive calls.  Each branch is the direct image of
the corresponding branch of the Rust scanning loop, with `template[i..]`
replaced by the list `t` and the index jumps replaced by `drop`/`take` on the
suffix. -/
def renderStep (r : List Char → Value → Option Value → List Char)
    (t : List Char) (root : Value) (lo : Option Value) : List Char :=
  match t with
  | [] => []
  | c :: rest =>
    if pctPct.isPrefixOf t then
      '%' :: r (t.drop 2) root lo
    else if eachOpen.isPrefixOf t then
      match findSubstr pct (t.drop 6) with
      | none => []
      | some p =>
        match findSubstr endEach ((t.drop 6).drop (p + 1)) with
        | none => []
        | some e =>
          (match resolve lo root (trim ((t.drop 6).take p)) with
            | some (Value.arr items) =>
                (items.map (fun item =>
                  r (((t.drop 6).drop (p + 1)).take e) root (some item))).flatten
            | _ => []) ++ r (((t.drop 6).drop (p + 1)).drop (e + 10)) root lo
    else if ifOpen.isPrefixOf t then
      match findSubstr pct (t.drop 4) with
      | none => []
      | some p =>
        match findSubstr endIf ((t.drop 4).drop (p + 1)) with
        | none => []
        | some e =>
          (if truthy (resolve lo root (trim ((t.drop 4).take p))) then
              r (((t.drop 4).drop (p + 1)).take e) root lo
            else []) ++ r (((t.drop 4).drop (p + 1)).drop (e + 8)) root lo
    else if c = '%' then
      match findSubstr pct rest with
      | none => '%' :: r rest root lo
      | some p =>
        (((resolve lo root (trim (splitPipe (rest.take p)).1)).bind as_display).filter
            (fun s => !s.isEmpty)).getD (splitPipe (rest.take p)).2
          ++ r (rest.drop (p + 1)) root lo
    else c :: r rest root lo

/-- Fuel-indexed renderer: `renderF fuel` performs at most `fuel` nested
dispatch steps.  Every dispatch step of the Rust loop strictly shortens the
template suffix it works on, so a fuel of the template's length is always
enough (proved below). -/
def renderF : Nat → List Char → Value → Option Value → List Char
  | 0, _, _, _ => []
  | fuel + 1, t, root, lo => renderStep (renderF fuel) t root lo

/-- Translation of `fn render_block(template, root, local)` of `src/lib.rs`. -/
def render_block (t : List Char) (root : Value) (lo : Option Value) : List Char :=
  renderF t.length t root lo

/-- Translation of `pub fn render_template(template, ctx)` of `src/lib.rs`:
a render of the whole template under the root context with no local scope. -/
def render_template (template : List Char) (ctx : Value) : List Char :=
  render_block template ctx none

/-! Lemmas about first-occurrence search. -/

theorem findSubstr_not_mem {α : Type} [BEq α] [LawfulBEq α] (c : α) (xs : List α)
    (h : c ∉ xs) : findSubstr [c] xs = none := by
  induction xs with
  | nil => rfl
  | cons a rest ih =>
    have hca : (c == a) = false := by
      simp only [beq_eq_false_iff_ne]
      exact fun hc => h (hc ▸ List.mem_cons_self a rest)
    simp only [findSubstr, List.isPrefixOf_cons₂, List.isPrefixOf_nil_left, Bool.and_true, hca,
      Bool.false_eq_true, if_false]
    rw [ih (fun hm => h (List.mem_cons_of_mem a hm))]
    rfl

theorem findSubstr_singleton_append {α : Type} [BEq α] [LawfulBEq α] (c : α) (xs ys : List α)
    (h : c ∉ xs) : findSubstr [c] (xs ++ c :: ys) = some xs.length := by
  induction xs with
  | nil =>
    simp only [List.nil_append, findSubstr, List.isPrefixOf_cons₂, List.isPrefixOf_nil_left,
      Bool.and_true, beq_self_eq_true, if_true, List.length_nil]
  | cons a rest ih =>
    have hca : (c == a) = false := by
      simp only [beq_eq_false_iff_ne]
      exact fun hc => h (hc ▸ List.mem_cons_self a rest)
    simp only [List.cons_append, findSubstr, List.isPrefixOf_cons₂, List.isPrefixOf_nil_left,
      Bool.and_true, hca, Bool.false_eq_true, if_false, List.append_eq]
    rw [ih (fun hm => h (List.mem_cons_of_mem a hm))]
    simp [List.length_cons]

theorem findSubstr_sound {α : Type} [BEq α] [LawfulBEq α] {pat t : List α} {p : Nat}
    (hne : pat ≠ []) (h : findSubstr pat t = some p) :
    pat.isPrefixOf (t.drop p) = true ∧ p + pat.length ≤ t.length := by
  induction t generalizing p with
  | nil =>
    have hfalse : pat.isEmpty = false := by
      cases pat with
      | nil => exact absurd rfl hne
      | cons a as => rfl
    simp [findSubstr, hfalse] at h
  | cons a rest ih =>
    by_cases hp : pat.isPrefixOf (a :: rest) = true
    · have h0 : p = 0 := by
        simp [findSubstr, hp] at h
        omega
      subst h0
      constructor
      · simpa using hp
      · have hlen := (List.isPrefixOf_iff_prefix.mp hp).length_le
        simp only [List.length_cons] at hlen ⊢
        omega
    · have hp' : pat.isPrefixOf (a :: rest) = false := by
        cases hb : pat.isPrefixOf (a :: rest) with
        | false => rfl
        | true => exact absurd hb hp
      simp only [findSubstr, hp', Bool.false_eq_true, if_false, Option.map_eq_some'] at h
      obtain ⟨q, hq, hpq⟩ := h
      obtain ⟨h1, h2⟩ := ih hq
      subst hpq
      constructor
      · simpa using h1
      · simp only [List.length_cons]
        omega

/-! Drop and take helpers, for splitting a template at directive markers. -/

theorem append_cons_drop {α : Type} (xs ys : List α) (c : α) :
    (xs ++ c :: ys).drop (xs.length + 1) = ys := by
  rw [← List.drop_drop, List.drop_left]
  rfl

theorem append_marker_drop {α : Type} (xs ys zs : List α) :
    (xs ++ (ys ++ zs)).drop (xs.length + ys.length) = zs := by
  rw [← List.drop_drop, List.drop_left, List.drop_left]

/-! One-step dispatch lemmas for the renderer. -/

theorem renderStep_nil (r : List Char → Value → Option Value → List Char)
    (root : Value) (lo : Option Value) : renderStep r [] root lo = [] := rfl

theorem renderStep_escape (r : List Char → Value → Option Value → List Char)
    (xs : List Char) (root : Value) (lo : Option Value) :
    renderStep r ('%' :: '%' :: xs) root lo = '%' :: r xs root lo := by
  have h1 : pctPct.isPrefixOf ('%' :: '%' :: xs) = true := by simp [pctPct]
  simp only [renderStep, h1, eq_self_iff_true, if_true, List.drop_succ_cons, List.drop_zero]

theorem renderStep_each (r : List Char → Value → Option Value → List Char)
    (xs : List Char) (root : Value) (lo : Option Value) :
    renderStep r ('%' :: 'E' :: 'A' :: 'C' :: 'H' :: ' ' :: xs) root lo =
      (match findSubstr pct xs with
      | none => []
      | some p =>
        match findSubstr endEach (xs.drop (p + 1)) with
        | none => []
        | some e =>
          (match resolve lo root (trim (xs.take p)) with
            | some (Value.arr items) =>
                (items.map (fun item => r ((xs.drop (p + 1)).take e) root (some item))).flatten
            | _ => []) ++ r ((xs.drop (p + 1)).drop (e + 10)) root lo) := by
  have h1 : pctPct.isPrefixOf ('%' :: 'E' :: 'A' :: 'C' :: 'H' :: ' ' :: xs) = false := rfl
  have h2 : eachOpen.isPrefixOf ('%' :: 'E' :: 'A' :: 'C' :: 'H' :: ' ' :: xs) = true := by
    simp [eachOpen]
  simp only [renderStep, h1, Bool.false_eq_true, if_false, h2, eq_self_iff_true, if_true,
    List.drop_succ_cons, List.drop_zero]

theorem renderStep_ifdir (r : List Char → Value → Option Value → List Char)
    (xs : List Char) (root : Value) (lo : Option Value) :
    renderStep r ('%' :: 'I' :: 'F' :: ' ' :: xs) root lo =
      (match findSubstr pct xs with
      | none => []
      | some p =>
        match findSubstr endIf (xs.drop (p + 1)) with
        | none => []
        | some e =>
          (if truthy (resolve lo root (trim (xs.take p))) then
              r ((xs.drop (p + 1)).take e) root lo
            else []) ++ r ((xs.drop (p + 1)).drop (e + 8)) root lo) := by
  have h1 : pctPct.isPrefixOf ('%' :: 'I' :: 'F' :: ' ' :: xs) = false := rfl
  have h2 : eachOpen.isPrefixOf ('%' :: 'I' :: 'F' :: ' ' :: xs) = false := rfl
  have h3 : ifOpen.isPrefixOf ('%' :: 'I' :: 'F' :: ' ' :: xs) = true := by simp [ifOpen]
  simp only [renderStep, h1, h2, Bool.false_eq_true, if_false, h3, eq_self_iff_true, if_true,
    List.drop_succ_cons, List.drop_zero]

theorem renderStep_subst (r : List Char → Value → Option Value → List Char)
    (xs : List Char) (root : Value) (lo : Option Value)
    (h1 : pctPct.isPrefixOf ('%' :: xs) = false)
    (h2 : eachOpen.isPrefixOf ('%' :: xs) = false)
    (h3 : ifOpen.isPrefixOf ('%' :: xs) = false) :
    renderStep r ('%' :: xs) root lo =
      (match findSubstr pct xs with
      | none => '%' :: r xs root lo
      | some p =>
        (((resolve lo root (trim (splitPipe (xs.take p)).1)).bind as_display).filter
            (fun s => !s.isEmpty)).getD (splitPipe (xs.take p)).2
          ++ r (xs.drop (p + 1)) root lo) := by
  simp only [renderStep, h1, h2, h3, Bool.false_eq_true, if_false, eq_self_iff_true, if_true]

theorem renderStep_char (r : List Char → Value → Option Value → List Char)
    (c : Char) (xs : List Char) (root : Value) (lo : Option Value) (h0 : c ≠ '%') :
    renderStep r (c :: xs) root lo = c :: r xs root lo := by
  have hne : ('%' == c) = false := beq_eq_false_iff_ne.mpr (Ne.symm h0)
  simp only [renderStep, pctPct, eachOpen, ifOpen, List.isPrefixOf_cons₂, hne, Bool.false_and,
    Bool.false_eq_true, if_false, h0, iff_false, if_neg]

/-! A dispatch step only calls the recursion on strictly shorter suffixes, so
`renderStep` is a congruence in its functional argument. -/

theorem renderStep_congr (r1 r2 : List Char → Value → Option Value → List Char)
    (t : List Char) (root : Value) (lo : Option Value)
    (h : ∀ u ro l, u.length < t.length → r1 u ro l = r2 u ro l) :
    renderStep r1 t root lo = renderStep r2 t root lo := by
  cases t with
  | nil => rfl
  | cons c rest =>
    simp only [renderStep]
    split
    · rw [h _ _ _ (by simp only [List.length_drop, List.length_cons]; omega)]
    · split
      · split
        · rfl
        · split
          · rfl
          · congr 1
            · split
              · rw [List.map_congr_left (fun item _ => h _ _ _
                  (by simp only [List.length_take, List.length_drop, List.length_cons]; omega))]
              all_goals rfl
            · rw [h _ _ _ (by simp only [List.length_drop, List.length_cons]; omega)]
      · split
        · split
          · rfl
          · split
            · rfl
            · congr 1
              · split
                · rw [h _ _ _
                    (by simp only [List.length_take, List.length_drop, List.length_cons]; omega)]
                · rfl
              · rw [h _ _ _ (by simp only [List.length_drop, List.length_cons]; omega)]
        · split
          · split
            · rw [h _ _ _ (by simp only [List.length_cons]; omega)]
            · rw [h _ _ _ (by simp only [List.length_drop, List.length_cons]; omega)]
          · rw [h _ _ _ (by simp only [List.length_cons]; omega)]

/-- The fuel argument of `renderF` is irrelevant once it is at least the
length of the template: every dispatch step strictly shortens the suffix. -/
theorem renderF_stable (n : Nat) (t : List Char) (root : Value) (lo : Option Value)
    (hle : t.length ≤ n) : renderF n t root lo = renderF t.length t root lo := by
  induction n using Nat.strong_induction_on generalizing t root lo with
  | _ n ih =>
    cases n with
    | zero =>
      cases t with
      | nil => rfl
      | cons c rest => simp at hle
    | succ m =>
      cases t with
      | nil =>
        show renderStep (renderF m) [] root lo = renderF 0 [] root lo
        rfl
      | cons c rest =>
        show renderStep (renderF m) (c :: rest) root lo =
          renderStep (renderF rest.length) (c :: rest) root lo
        apply renderStep_congr
        intro u ro l hu
        simp only [List.length_cons] at hle hu
        have h1 : renderF m u ro l = renderF u.length u ro l :=
          ih m (by omega) u ro l (by omega)
        have h2 : renderF rest.length u ro l = renderF u.length u ro l :=
          ih rest.length (by omega) u ro l (by omega)
        rw [h1, h2]

/-- Unfolding equation for `render_block`: one dispatch step of the scanning
loop, with `render_block` itself doing the recursive work. -/
theorem render_block_eq (t : List Char) (root : Value) (lo : Option Value) :
    render_block t root lo = renderStep render_block t root lo := by
  cases t with
  | nil => rfl
  | cons c rest =>
    show renderStep (renderF rest.length) (c :: rest) root lo =
      renderStep render_block (c :: rest) root lo
    apply renderStep_congr
    intro u ro l hu
    simp only [List.length_cons] at hu
    exact renderF_stable rest.length u ro l (by omega)

/-- Plain text without any percent character renders to itself. -/
theorem render_block_no_pct (t : List Char) (root : Value) (lo : Option Value)
    (h : '%' ∉ t) : render_block t root lo = t := by
  induction t with
  | nil => rfl
  | cons c rest ih =>
    rw [render_block_eq, renderStep_char _ _ _ _ _
      (fun hc => h (hc ▸ List.mem_cons_self c rest)),
      ih (fun hm => h (List.mem_cons_of_mem c hm))]

theorem drop_block_endEach (block rest : List Char) :
    (block ++ (endEach ++ rest)).drop (block.length + 10) = rest :=
  append_marker_drop block endEach rest

theorem drop_block_endIf (block rest : List Char) :
    (block ++ (endIf ++ rest)).drop (block.length + 8) = rest :=
  append_marker_drop block endIf rest

/-! Byte-level model of the scanner, for UTF-8 boundary safety.  The Rust
`render_block` keeps a byte index `i` into the template and advances it by
the byte lengths of the ASCII directive markers, by the positions returned by
`str::find`, or by the UTF-8 length of the character copied in the fallback
branch.  `nextIdx` below is that index arithmetic, over the list of bytes of
the template. -/

/-- UTF-8 encoding of one character (1 to 4 bytes, continuation bytes carry
the tag bits 10xxxxxx). -/
def encodeChar (c : Char) : List Nat :=
  if c.toNat < 128 then [c.toNat]
  else if c.toNat < 2048 then [192 + c.toNat / 64, 128 + c.toNat % 64]
  else if c.toNat < 65536 then
    [224 + c.toNat / 4096, 128 + (c.toNat / 64) % 64, 128 + c.toNat % 64]
  else
    [240 + c.toNat / 262144, 128 + (c.toNat / 4096) % 64, 128 + (c.toNat / 64) % 64,
      128 + c.toNat % 64]

/-- UTF-8 encoding of a string (as the byte list a Rust `&str` holds). -/
def encode (cs : List Char) : List Nat := cs.flatMap encodeChar

/-- A byte index is a character boundary when it is the encoded length of
some prefix of the character string. -/
def IsBoundary (cs : List Char) (i : Nat) : Prop :=
  ∃ pre suf, cs = pre ++ suf ∧ (encode pre).length = i

/-- Model of `chars().next()` on a byte suffix: decode one UTF-8 character,
returning the code point and its byte length; `none` models the panic the
`unwrap()` would turn an absent character into. -/
def utf8Decode1 : List Nat → Option (Nat × Nat)
  | [] => none
  | b :: rest =>
    if b < 128 then some (b, 1)
    else if b < 192 then none
    else if b < 224 then
      match rest with
      | b1 :: _ =>
        if 128 ≤ b1 ∧ b1 < 192 then some ((b - 192) * 64 + (b1 - 128), 2) else none
      | [] => none
    else if b < 240 then
      match rest with
      | b1 :: b2 :: _ =>
        if (128 ≤ b1 ∧ b1 < 192) ∧ (128 ≤ b2 ∧ b2 < 192) then
          some ((b - 224) * 4096 + (b1 - 128) * 64 + (b2 - 128), 3)
        else none
      | _ => none
    else
      match rest with
      | b1 :: b2 :: b3 :: _ =>
        if (128 ≤ b1 ∧ b1 < 192) ∧ (128 ≤ b2 ∧ b2 < 192) ∧ (128 ≤ b3 ∧ b3 < 192) then
          some ((b - 240) * 262144 + (b1 - 128) * 4096 + (b2 - 128) * 64 + (b3 - 128), 4)
        else none
      | _ => none

def pctB : Nat := 37

def pctPctB : List Nat := [37, 37]

def eachOpenB : List Nat := [37, 69, 65, 67, 72, 32]

def endEachB : List Nat := [37, 69, 78, 68, 95, 69, 65, 67, 72, 37]

def ifOpenB : List Nat := [37, 73, 70, 32]

def endIfB : List Nat := [37, 69, 78, 68, 95, 73, 70, 37]

/-- The byte-index arithmetic of one iteration of the scanning loop of
`render_block` in `src/lib.rs`: from the template bytes and the current index,
the next index (`t.length` models the loop-ending `break` exits); `none`
models the panic of `chars().next().unwrap()` when no character can be
decoded at the index. -/
def nextIdx (t : List Nat) (i : Nat) : Option Nat :=
  if pctPctB.isPrefixOf (t.drop i) then some (i + 2)
  else if eachOpenB.isPrefixOf (t.drop i) then
    match findSubstr [pctB] (t.drop (i + 6)) with
    | none => some t.length
    | some p =>
      match findSubstr endEachB (t.drop (i + 6 + p + 1)) with
      | none => some t.length
      | some e => some (i + 6 + p + 1 + e + 10)
  else if ifOpenB.isPrefixOf (t.drop i) then
    match findSubstr [pctB] (t.drop (i + 4)) with
    | none => some t.length
    | some p =>
      match findSubstr endIfB (t.drop (i + 4 + p + 1)) with
      | none => some t.length
      | some e => some (i + 4 + p + 1 + e + 8)
  else if t[i]? = some pctB then
    match findSubstr [pctB] (t.drop (i + 1)) with
    | none => some (i + 1)
    | some e => some (i + e + 2)
  else
    match utf8Decode1 (t.drop i) with
    | some q => some (i + q.2)
    | none => none

theorem encode_cons (c : Char) (cs : List Char) :
    encode (c :: cs) = encodeChar c ++ encode cs := rfl

theorem encode_append (l1 l2 : List Char) :
    encode (l1 ++ l2) = encode l1 ++ encode l2 := by
  simp [encode, List.flatMap_append]

theorem encodeChar_length_pos (c : Char) : 0 < (encodeChar c).length := by
  unfold encodeChar
  split
  · simp
  · split
    · simp
    · split
      · simp
      · simp

theorem encodeChar_ascii {c : Char} (h : c.toNat < 128) : encodeChar c = [c.toNat] := by
  simp [encodeChar, h]

theorem encodeChar_multi {c : Char} (h : ¬ c.toNat < 128) :
    ∀ b ∈ encodeChar c, 128 ≤ b := by
  intro b hb
  simp only [encodeChar, if_neg h] at hb
  split at hb
  · simp at hb
    rcases hb with h1 | h1 <;> omega
  · split at hb
    · simp at hb
      rcases hb with h1 | h1 | h1 <;> omega
    · simp at hb
      rcases hb with h1 | h1 | h1 | h1 <;> omega

/-- A byte below 128 can only sit at a character boundary: every non-initial
byte of a multi-byte encoding carries the continuation tag. -/
theorem boundary_of_ascii_byte {cs : List Char} {p : Nat} {b : Nat}
    (h : (encode cs)[p]? = some b) (hlt : b < 128) : IsBoundary cs p := by
  induction cs generalizing p with
  | nil => simp [encode] at h
  | cons c cs' ih =>
    rw [encode_cons] at h
    by_cases hp : p < (encodeChar c).length
    · rw [List.getElem?_append_left hp] at h
      by_cases hc : c.toNat < 128
      · rw [encodeChar_ascii hc] at hp
        simp at hp
        subst hp
        exact ⟨[], c :: cs', rfl, rfl⟩
      · have hmem := List.getElem?_mem h
        have := encodeChar_multi hc b hmem
        omega
    · rw [List.getElem?_append_right (Nat.le_of_not_lt hp)] at h
      obtain ⟨pre, suf, heq, hlen⟩ := ih h
      refine ⟨c :: pre, suf, by rw [heq]; rfl, ?_⟩
      rw [encode_cons, List.length_append, hlen]
      omega

theorem boundary_zero (cs : List Char) : IsBoundary cs 0 := ⟨[], cs, rfl, rfl⟩

theorem boundary_length (cs : List Char) : IsBoundary cs (encode cs).length :=
  ⟨cs, [], by simp, rfl⟩

theorem boundary_drop {cs : List Char} {i : Nat} (h : IsBoundary cs i) :
    ∃ suf, (encode cs).drop i = encode suf ∧ ∃ pre, cs = pre ++ suf
      ∧ (encode pre).length = i := by
  obtain ⟨pre, suf, heq, hlen⟩ := h
  refine ⟨suf, ?_, pre, heq, hlen⟩
  rw [heq, encode_append, ← hlen, List.drop_left]

/-- If the head of an encoded suffix is an ASCII byte, it is the single-byte
encoding of the suffix's first character. -/
theorem ascii_head_decomp {suf : List Char} {b : Nat}
    (h : (encode suf).head? = some b) (hlt : b < 128) :
    ∃ c suf', suf = c :: suf' ∧ encodeChar c = [b] := by
  cases suf with
  | nil => simp [encode] at h
  | cons c suf' =>
    rw [encode_cons] at h
    by_cases hc : c.toNat < 128
    · rw [encodeChar_ascii hc] at h
      simp at h
      exact ⟨c, suf', rfl, by rw [encodeChar_ascii hc, h]⟩
    · have hb : b ∈ encodeChar c := by
        have hne : encodeChar c ≠ [] := by
          have := encodeChar_length_pos c
          intro hh
          rw [hh] at this
          simp at this
        cases he : encodeChar c with
        | nil => exact absurd he hne
        | cons x xs =>
          rw [he] at h
          simp at h
          exact h ▸ (he ▸ List.mem_cons_self x xs)
      have := encodeChar_multi hc b hb
      omega

theorem boundary_add_ascii {cs : List Char} {i b : Nat} (hb : IsBoundary cs i)
    (h : (encode cs)[i]? = some b) (hlt : b < 128) : IsBoundary cs (i + 1) := by
  obtain ⟨suf, hdrop, pre, heq, hlen⟩ := boundary_drop hb
  have hh : (encode suf).head? = some b := by
    rw [← hdrop, List.head?_eq_getElem?, List.getElem?_drop]
    simpa using h
  obtain ⟨c, suf', rfl, henc⟩ := ascii_head_decomp hh hlt
  refine ⟨pre ++ [c], suf', by rw [heq, List.append_assoc]; rfl, ?_⟩
  rw [encode_append, List.length_append, hlen]
  simp [encode, henc]

/-- Scanning over a list of ASCII marker bytes advances the boundary by the
marker's length. -/
theorem boundary_add_list {cs : List Char} {ms : List Nat} {i : Nat}
    (hb : IsBoundary cs i) (hp : ms.isPrefixOf ((encode cs).drop i) = true)
    (hascii : ∀ b ∈ ms, b < 128) : IsBoundary cs (i + ms.length) := by
  induction ms generalizing i with
  | nil => simpa using hb
  | cons m ms' ih =>
    cases hl : (encode cs).drop i with
    | nil => rw [hl] at hp; simp at hp
    | cons x xs =>
      rw [hl, List.isPrefixOf_cons₂] at hp
      have hmx : m = x := by
        have := (Bool.and_eq_true _ _).mp hp
        exact eq_of_beq this.1
      have hget : (encode cs)[i]? = some m := by
        have h0 : ((encode cs).drop i)[0]? = some x := by rw [hl]; simp
        rw [List.getElem?_drop] at h0
        rw [hmx]
        simpa using h0
      have hb1 : IsBoundary cs (i + 1) :=
        boundary_add_ascii hb hget (hascii m (List.mem_cons_self m ms'))
      have hp' : ms'.isPrefixOf ((encode cs).drop (i + 1)) = true := by
        have ht : ((encode cs).drop i).tail = (encode cs).drop (i + 1) :=
          List.tail_drop (encode cs) i
        rw [← ht, hl]
        exact ((Bool.and_eq_true _ _).mp hp).2
      have := ih hb1 hp' (fun b hbm => hascii b (List.mem_cons_of_mem m hbm))
      have harith : i + 1 + ms'.length = i + (m :: ms').length := by
        simp [List.length_cons]
        omega
      rwa [harith] at this

/-- Decoding the encoding of a nonempty character string yields its first
character's code point and byte length: the `unwrap()` of the fallback branch
cannot fail at a character boundary. -/
theorem utf8Decode1_encode (c : Char) (suf : List Char) :
    utf8Decode1 (encode (c :: suf)) = some (c.toNat, (encodeChar c).length) := by
  rw [encode_cons]
  by_cases h1 : c.toNat < 128
  · rw [encodeChar_ascii h1]
    simp [utf8Decode1, h1]
  · by_cases h2 : c.toNat < 2048
    · have he : encodeChar c = [192 + c.toNat / 64, 128 + c.toNat % 64] := by
        unfold encodeChar
        rw [if_neg h1, if_pos h2]
      rw [he]
      have c1 : ¬ (192 + c.toNat / 64 < 128) := by omega
      have c2 : ¬ (192 + c.toNat / 64 < 192) := by omega
      have c3 : 192 + c.toNat / 64 < 224 := by omega
      have c4 : 128 ≤ 128 + c.toNat % 64 ∧ 128 + c.toNat % 64 < 192 := by omega
      have c5 : (192 + c.toNat / 64 - 192) * 64 + (128 + c.toNat % 64 - 128) = c.toNat := by
        omega
      simp only [List.cons_append, List.nil_append, utf8Decode1, if_neg c1, if_neg c2,
        if_pos c3, if_pos c4, c5, List.length_cons, List.length_nil]
    · by_cases h3 : c.toNat < 65536
      · have he : encodeChar c
            = [224 + c.toNat / 4096, 128 + (c.toNat / 64) % 64, 128 + c.toNat % 64] := by
          unfold encodeChar
          rw [if_neg h1, if_neg h2, if_pos h3]
        rw [he]
        have c1 : ¬ (224 + c.toNat / 4096 < 128) := by omega
        have c2 : ¬ (224 + c.toNat / 4096 < 192) := by omega
        have c3 : ¬ (224 + c.toNat / 4096 < 224) := by omega
        have c4 : 224 + c.toNat / 4096 < 240 := by omega
        have c5 : (128 ≤ 128 + (c.toNat / 64) % 64 ∧ 128 + (c.toNat / 64) % 64 < 192)
            ∧ (128 ≤ 128 + c.toNat % 64 ∧ 128 + c.toNat % 64 < 192) := by omega
        have c6 : (224 + c.toNat / 4096 - 224) * 4096 + (128 + (c.toNat / 64) % 64 - 128) * 64
            + (128 + c.toNat % 64 - 128) = c.toNat := by omega
        simp only [List.cons_append, List.nil_append, utf8Decode1, if_neg c1, if_neg c2,
          if_neg c3, if_pos c4, if_pos c5, c6, List.length_cons, List.length_nil]
      · have he : encodeChar c = [240 + c.toNat / 262144, 128 + (c.toNat / 4096) % 64,
            128 + (c.toNat / 64) % 64, 128 + c.toNat % 64] := by
          unfold encodeChar
          rw [if_neg h1, if_neg h2, if_neg h3]
        rw [he]
        have c1 : ¬ (240 + c.toNat / 262144 < 128) := by omega
        have c2 : ¬ (240 + c.toNat / 262144 < 192) := by omega
        have c3 : ¬ (240 + c.toNat / 262144 < 224) := by omega
        have c4 : ¬ (240 + c.toNat / 262144 < 240) := by omega
        have c5 : (128 ≤ 128 + (c.toNat / 4096) % 64 ∧ 128 + (c.toNat / 4096) % 64 < 192)
            ∧ (128 ≤ 128 + (c.toNat / 64) % 64 ∧ 128 + (c.toNat / 64) % 64 < 192)
            ∧ (128 ≤ 128 + c.toNat % 64 ∧ 128 + c.toNat % 64 < 192) := by omega
        have c6 : (240 + c.toNat / 262144 - 240) * 262144
            + (128 + (c.toNat / 4096) % 64 - 128) * 4096
            + (128 + (c.toNat / 64) % 64 - 128) * 64
            + (128 + c.toNat % 64 - 128) = c.toNat := by omega
        simp only [List.cons_append, List.nil_append, utf8Decode1, if_neg c1, if_neg c2,
          if_neg c3, if_neg c4, if_pos c5, c6, List.length_cons, List.length_nil]

theorem cons_isPrefixOf_head {a : Nat} {ms l : List Nat}
    (h : (a :: ms).isPrefixOf l = true) : l.head? = some a := by
  cases l with
  | nil => simp at h
  | cons x xs =>
    rw [List.isPrefixOf_cons₂] at h
    have hax := (Bool.and_eq_true _ _).mp h
    rw [eq_of_beq hax.1]
    rfl

/-- C8: UTF-8 safety of the byte scanner.  Starting from any character
boundary strictly inside a valid UTF-8 template, the index arithmetic of the
scanning loop never panics (the next index exists: in particular the decode
backing `chars().next().unwrap()` succeeds), makes progress, stays within the
template, and lands on a character boundary again; moreover any byte below
128 — such as the `%` byte probed by `as_bytes()[i]` and every position
`str::find` can return for the ASCII markers — sits on a character boundary,
so every slice the branches take is boundary-aligned. -/
theorem scanner_utf8_safety (cs : List Char) (i : Nat)
    (hb : IsBoundary cs i) (hlt : i < (encode cs).length) :
    (∃ j, nextIdx (encode cs) i = some j ∧ i < j ∧ j ≤ (encode cs).length
      ∧ IsBoundary cs j)
    ∧ (∀ p b, (encode cs)[p]? = some b → b < 128 → IsBoundary cs p) := by
  refine ⟨?_, fun p b hpb hb128 => boundary_of_ascii_byte hpb hb128⟩
  by_cases h1 : pctPctB.isPrefixOf ((encode cs).drop i) = true
  · have hlen2 : i + 2 ≤ (encode cs).length := by
      have hl := (List.isPrefixOf_iff_prefix.mp h1).length_le
      simp only [pctPctB, List.length_cons, List.length_nil, List.length_drop] at hl
      omega
    exact ⟨i + 2, by simp [nextIdx, h1], by omega, hlen2,
      boundary_add_list hb h1 (by decide)⟩
  · by_cases h2 : eachOpenB.isPrefixOf ((encode cs).drop i) = true
    · cases hf1 : findSubstr [pctB] ((encode cs).drop (i + 6)) with
      | none =>
        exact ⟨(encode cs).length, by simp [nextIdx, h1, h2, hf1], hlt, Nat.le_refl _,
          boundary_length cs⟩
      | some p =>
        cases hf2 : findSubstr endEachB ((encode cs).drop (i + 6 + p + 1)) with
        | none =>
          exact ⟨(encode cs).length, by simp [nextIdx, h1, h2, hf1, hf2], hlt, Nat.le_refl _,
            boundary_length cs⟩
        | some e =>
          obtain ⟨hpre1, hbound1⟩ := findSubstr_sound (by decide) hf1
          obtain ⟨hpre2, hbound2⟩ := findSubstr_sound (by decide) hf2
          rw [List.drop_drop] at hpre2
          have hhead : ((encode cs).drop (i + 6 + p + 1 + e)).head? = some 37 := by
            simp only [endEachB] at hpre2
            exact cons_isPrefixOf_head hpre2
          have hb37 : (encode cs)[i + 6 + p + 1 + e]? = some 37 := by
            rw [List.head?_eq_getElem?, List.getElem?_drop] at hhead
            simpa using hhead
          have hbd : IsBoundary cs (i + 6 + p + 1 + e) :=
            boundary_of_ascii_byte hb37 (by omega)
          have hbd2 := boundary_add_list hbd hpre2 (by decide)
          simp only [endEachB, endIfB, List.length_drop, List.length_cons, List.length_nil] at hbound1 hbound2
          refine ⟨i + 6 + p + 1 + e + 10, by simp [nextIdx, h1, h2, hf1, hf2],
            by omega, by omega, ?_⟩
          have harith : i + 6 + p + 1 + e + endEachB.length = i + 6 + p + 1 + e + 10 := rfl
          rwa [harith] at hbd2
    · by_cases h3 : ifOpenB.isPrefixOf ((encode cs).drop i) = true
      · cases hf1 : findSubstr [pctB] ((encode cs).drop (i + 4)) with
        | none =>
          exact ⟨(encode cs).length, by simp [nextIdx, h1, h2, h3, hf1], hlt, Nat.le_refl _,
            boundary_length cs⟩
        | some p =>
          cases hf2 : findSubstr endIfB ((encode cs).drop (i + 4 + p + 1)) with
          | none =>
            exact ⟨(encode cs).length, by simp [nextIdx, h1, h2, h3, hf1, hf2], hlt,
              Nat.le_refl _, boundary_length cs⟩
          | some e =>
            obtain ⟨hpre1, hbound1⟩ := findSubstr_sound (by decide) hf1
            obtain ⟨hpre2, hbound2⟩ := findSubstr_sound (by decide) hf2
            rw [List.drop_drop] at hpre2
            have hhead : ((encode cs).drop (i + 4 + p + 1 + e)).head? = some 37 := by
              simp only [endIfB] at hpre2
              exact cons_isPrefixOf_head hpre2
            have hb37 : (encode cs)[i + 4 + p + 1 + e]? = some 37 := by
              rw [List.head?_eq_getElem?, List.getElem?_drop] at hhead
              simpa using hhead
            have hbd : IsBoundary cs (i + 4 + p + 1 + e) :=
              boundary_of_ascii_byte hb37 (by omega)
            have hbd2 := boundary_add_list hbd hpre2 (by decide)
            simp only [endEachB, endIfB, List.length_drop, List.length_cons, List.length_nil] at hbound1 hbound2
            refine ⟨i + 4 + p + 1 + e + 8, by simp [nextIdx, h1, h2, h3, hf1, hf2],
              by omega, by omega, ?_⟩
            have harith : i + 4 + p + 1 + e + endIfB.length = i + 4 + p + 1 + e + 8 := rfl
            rwa [harith] at hbd2
      · by_cases h4 : (encode cs)[i]? = some pctB
        · cases hf : findSubstr [pctB] ((encode cs).drop (i + 1)) with
          | none =>
            exact ⟨i + 1, by simp [nextIdx, h1, h2, h3, h4, hf], by omega, by omega,
              boundary_add_ascii hb h4 (by decide)⟩
          | some e =>
            obtain ⟨hpre, hbound⟩ := findSubstr_sound (by decide) hf
            rw [List.drop_drop] at hpre
            have hhead : ((encode cs).drop (i + 1 + e)).head? = some 37 :=
              cons_isPrefixOf_head hpre
            have hb37 : (encode cs)[i + 1 + e]? = some 37 := by
              rw [List.head?_eq_getElem?, List.getElem?_drop] at hhead
              simpa using hhead
            have hbd : IsBoundary cs (i + 1 + e) := boundary_of_ascii_byte hb37 (by omega)
            have hbd2 := boundary_add_ascii hbd hb37 (by omega)
            simp only [List.length_drop, List.length_cons, List.length_nil] at hbound
            refine ⟨i + e + 2, by simp [nextIdx, h1, h2, h3, h4, hf], by omega, by omega, ?_⟩
            have harith : i + 1 + e + 1 = i + e + 2 := by omega
            rwa [harith] at hbd2
        · obtain ⟨suf, hdrop, pre, heqq, hlenn⟩ := boundary_drop hb
          cases suf with
          | nil =>
            exfalso
            have hnil : (encode cs).drop i = [] := by rw [hdrop]; rfl
            have := congrArg List.length hnil
            simp only [List.length_drop, List.length_nil] at this
            omega
          | cons c suf' =>
            have hdec : utf8Decode1 ((encode cs).drop i)
                = some (c.toNat, (encodeChar c).length) := by
              rw [hdrop]
              exact utf8Decode1_encode c suf'
            refine ⟨i + (encodeChar c).length,
              by simp [nextIdx, h1, h2, h3, h4, hdec], ?_, ?_, ?_⟩
            · have := encodeChar_length_pos c
              omega
            · have hleneq : ((encode cs).drop i).length = (encode (c :: suf')).length := by
                rw [hdrop]
              rw [List.length_drop, encode_cons, List.length_append] at hleneq
              omega
            · refine ⟨pre ++ [c], suf', by rw [heqq, List.append_assoc]; rfl, ?_⟩
              rw [encode_append, List.length_append, hlenn]
              simp [encode]

/-- C8 witness: the scanner's index arithmetic at the start of the concrete
two-character template `%a`. -/
theorem scanner_utf8_safety_witness :
    (∃ j, nextIdx (encode ['%', 'a']) 0 = some j ∧ 0 < j
      ∧ j ≤ (encode ['%', 'a']).length ∧ IsBoundary ['%', 'a'] j)
    ∧ (∀ p b, (encode ['%', 'a'])[p]? = some b → b < 128 → IsBoundary ['%', 'a'] p) :=
  scanner_utf8_safety ['%', 'a'] 0 ⟨[], ['%', 'a'], rfl, rfl⟩ (by decide)

/-- C1: semantics of the iteration directive.  For a template
`%EACH tag% block %END_EACH% rest` whose tag text holds no percent sign and
whose first closing marker is the one ending the block, the renderer resolves
the trimmed tag under the current scope; a Sequence renders the block once
per element, with the local scope rebound to that element and the root
unchanged, concatenated in sequence order; anything else (a non-sequence or
an unresolved tag) contributes nothing; scanning then resumes after the
closing marker. -/
theorem each_directive_semantics (tagtxt block rest : List Char) (root : Value)
    (lo : Option Value) (htag : '%' ∉ tagtxt)
    (hblock : findSubstr endEach (block ++ (endEach ++ rest)) = some block.length) :
    render_block (eachOpen ++ (tagtxt ++ '%' :: (block ++ (endEach ++ rest)))) root lo =
      (match resolve lo root (trim tagtxt) with
        | some (Value.arr items) =>
            (items.map (fun item => render_block block root (some item))).flatten
        | _ => []) ++ render_block rest root lo := by
  have hshape : eachOpen ++ (tagtxt ++ '%' :: (block ++ (endEach ++ rest)))
      = '%' :: 'E' :: 'A' :: 'C' :: 'H' :: ' '
          :: (tagtxt ++ '%' :: (block ++ (endEach ++ rest))) := rfl
  rw [hshape, render_block_eq, renderStep_each]
  simp only [pct]
  split
  next h1 =>
    rw [findSubstr_singleton_append '%' tagtxt _ htag] at h1
    simp at h1
  next p h1 =>
    rw [findSubstr_singleton_append '%' tagtxt _ htag] at h1
    obtain rfl := Option.some.inj h1
    rw [append_cons_drop]
    split
    next h2 =>
      rw [hblock] at h2
      simp at h2
    next e h2 =>
      rw [hblock] at h2
      obtain rfl := Option.some.inj h2
      rw [List.take_left, List.take_left, drop_block_endEach]

/-- C1 witness: iterating over a two-element sequence, with the block reading
the element's member under the rebound local scope. -/
theorem each_directive_semantics_witness :
    render_block (eachOpen ++ (['k'] ++ '%' :: (['<', '%', 'n', '%', '>']
        ++ (endEach ++ ['!']))))
      (Value.obj [(['k'], Value.arr [Value.obj [(['n'], Value.str ['A'])],
        Value.obj [(['n'], Value.str ['B'])]])]) none
      = ['<', 'A', '>', '<', 'B', '>', '!'] := by
  rw [each_directive_semantics ['k'] ['<', '%', 'n', '%', '>'] ['!'] _ none
    (by decide) (by decide)]
  decide

/-- C3: semantics of the conditional directive.  For a template
`%IF tag% block %END_IF% rest` whose tag text holds no percent sign and whose
first closing marker ends the block, the block renders exactly once under the
unchanged scope when the resolved value is truthy and contributes nothing
otherwise; truthiness holds for every value except an unresolved key, Null
and the empty String — in particular Boolean false, the number 0, an empty
Sequence and an empty Mapping are all truthy. -/
theorem if_directive_semantics (tagtxt block rest : List Char) (root : Value)
    (lo : Option Value) (htag : '%' ∉ tagtxt)
    (hblock : findSubstr endIf (block ++ (endIf ++ rest)) = some block.length) :
    (render_block (ifOpen ++ (tagtxt ++ '%' :: (block ++ (endIf ++ rest)))) root lo =
      (if truthy (resolve lo root (trim tagtxt)) then render_block block root lo else [])
        ++ render_block rest root lo)
    ∧ truthy none = false
    ∧ truthy (some Value.null) = false
    ∧ (∀ s, truthy (some (Value.str s)) = !s.isEmpty)
    ∧ truthy (some (Value.bool false)) = true
    ∧ truthy (some (Value.num 0)) = true
    ∧ truthy (some (Value.arr [])) = true
    ∧ truthy (some (Value.obj [])) = true := by
  refine ⟨?_, rfl, rfl, fun s => rfl, rfl, rfl, rfl, rfl⟩
  have hshape : ifOpen ++ (tagtxt ++ '%' :: (block ++ (endIf ++ rest)))
      = '%' :: 'I' :: 'F' :: ' '
          :: (tagtxt ++ '%' :: (block ++ (endIf ++ rest))) := rfl
  rw [hshape, render_block_eq, renderStep_ifdir]
  simp only [pct]
  split
  next h1 =>
    rw [findSubstr_singleton_append '%' tagtxt _ htag] at h1
    simp at h1
  next p h1 =>
    rw [findSubstr_singleton_append '%' tagtxt _ htag] at h1
    obtain rfl := Option.some.inj h1
    rw [append_cons_drop]
    split
    next h2 =>
      rw [hblock] at h2
      simp at h2
    next e h2 =>
      rw [hblock] at h2
      obtain rfl := Option.some.inj h2
      rw [List.take_left, List.take_left, drop_block_endIf]

/-- C3 witness: a Boolean false value is truthy for the conditional, so the
block renders; scanning resumes after the closing marker. -/
theorem if_directive_semantics_witness :
    render_block (ifOpen ++ (['b'] ++ '%' :: (['o', 'k'] ++ (endIf ++ ['!']))))
      (Value.obj [(['b'], Value.bool false)]) none = ['o', 'k', '!'] := by
  rw [(if_directive_semantics ['b'] ['o', 'k'] ['!'] _ none (by decide) (by decide)).1]
  decide

theorem pctPct_not_isPrefixOf (token tail : List Char) (hne : token ≠ [])
    (hpct : '%' ∉ token) : pctPct.isPrefixOf ('%' :: (token ++ tail)) = false := by
  cases token with
  | nil => exact absurd rfl hne
  | cons a as =>
    have ha : ('%' == a) = false :=
      beq_eq_false_iff_ne.mpr (fun hh => hpct (hh ▸ List.mem_cons_self a as))
    simp [pctPct, List.isPrefixOf_cons₂, ha]

/-- C4: semantics of the substitution directive `%token%`.  The token is
split at its first pipe into a key part and a default part, the key is
trimmed and resolved under the current scope, and the resolved value is
converted by the display conversion; when the conversion is absent or yields
the empty string, the default text is emitted instead, verbatim, with no
re-rendering; the display conversion maps Null to nothing, Booleans and
Numbers to their canonical text and Strings to themselves. -/
theorem substitution_semantics (token rest : List Char) (root : Value)
    (lo : Option Value) (hne : token ≠ []) (hpct : '%' ∉ token)
    (hE : eachOpen.isPrefixOf ('%' :: (token ++ '%' :: rest)) = false)
    (hI : ifOpen.isPrefixOf ('%' :: (token ++ '%' :: rest)) = false) :
    (render_block ('%' :: (token ++ '%' :: rest)) root lo =
      (((resolve lo root (trim (splitPipe token).1)).bind as_display).filter
          (fun s => !s.isEmpty)).getD (splitPipe token).2
        ++ render_block rest root lo)
    ∧ as_display Value.null = none
    ∧ (∀ b, as_display (Value.bool b)
        = some (if b then ['t', 'r', 'u', 'e'] else ['f', 'a', 'l', 's', 'e']))
    ∧ (∀ n : Int, as_display (Value.num n) = some (toString n).toList)
    ∧ (∀ s, as_display (Value.str s) = some s) := by
  refine ⟨?_, rfl, fun b => rfl, fun n => rfl, fun s => rfl⟩
  rw [render_block_eq, renderStep_subst _ _ _ _
    (pctPct_not_isPrefixOf token ('%' :: rest) hne hpct) hE hI]
  simp only [pct]
  split
  next h1 =>
    rw [findSubstr_singleton_append '%' token rest hpct] at h1
    simp at h1
  next p h1 =>
    rw [findSubstr_singleton_append '%' token rest hpct] at h1
    obtain rfl := Option.some.inj h1
    rw [List.take_left, append_cons_drop]

/-- C4 witness: a missing key with a default, followed by trailing text. -/
theorem substitution_semantics_witness :
    render_block ('%' :: (['m', '|', 'd'] ++ '%' :: ['!'])) Value.null none = ['d', '!'] := by
  rw [(substitution_semantics ['m', '|', 'd'] ['!'] Value.null none
    (by decide) (by decide) (by decide) (by decide)).1]
  decide

/-- C9: only the first pipe separates key and default.  Splitting the token
`key|dflt` (with no pipe inside the key) yields exactly that key and the
entire remainder as default — so a default may itself contain pipes — and a
substitution whose key resolves to nothing emits that full default verbatim. -/
theorem default_keeps_pipes (key dflt rest : List Char) (root : Value)
    (lo : Option Value) (hkp : '|' ∉ key) (hkc : '%' ∉ key) (hdc : '%' ∉ dflt)
    (hE : eachOpen.isPrefixOf ('%' :: ((key ++ '|' :: dflt) ++ '%' :: rest)) = false)
    (hI : ifOpen.isPrefixOf ('%' :: ((key ++ '|' :: dflt) ++ '%' :: rest)) = false)
    (hres : ((resolve lo root (trim key)).bind as_display).filter
        (fun s => !s.isEmpty) = none) :
    splitPipe (key ++ '|' :: dflt) = (key, dflt)
    ∧ render_block ('%' :: ((key ++ '|' :: dflt) ++ '%' :: rest)) root lo
        = dflt ++ render_block rest root lo := by
  have hsplit : splitPipe (key ++ '|' :: dflt) = (key, dflt) := by
    unfold splitPipe
    rw [findSubstr_singleton_append '|' key dflt hkp]
    show (List.take key.length (key ++ '|' :: dflt),
      List.drop (key.length + 1) (key ++ '|' :: dflt)) = (key, dflt)
    rw [List.take_left, append_cons_drop]
  refine ⟨hsplit, ?_⟩
  have htok : '%' ∉ key ++ '|' :: dflt := by
    intro hm
    rcases List.mem_append.mp hm with h | h
    · exact hkc h
    · rcases List.mem_cons.mp h with h | h
      · cases h
      · exact hdc h
  have hne : key ++ '|' :: dflt ≠ [] := by
    intro hh
    exact absurd (congrArg List.length hh) (by simp)
  rw [render_block_eq, renderStep_subst _ _ _ _
    (pctPct_not_isPrefixOf (key ++ '|' :: dflt) ('%' :: rest) hne htok) hE hI]
  simp only [pct]
  split
  next h1 =>
    rw [findSubstr_singleton_append '%' (key ++ '|' :: dflt) rest htok] at h1
    simp at h1
  next p h1 =>
    rw [findSubstr_singleton_append '%' (key ++ '|' :: dflt) rest htok] at h1
    obtain rfl := Option.some.inj h1
    rw [List.take_left, append_cons_drop, hsplit]
    rw [show (key, dflt).1 = key from rfl, show (key, dflt).2 = dflt from rfl, hres]
    rfl

/-- C9 witness: the default `a|b` keeps its inner pipe and is emitted whole. -/
theorem default_keeps_pipes_witness :
    splitPipe (['k'] ++ '|' :: ['a', '|', 'b']) = (['k'], ['a', '|', 'b'])
    ∧ render_block ('%' :: ((['k'] ++ '|' :: ['a', '|', 'b']) ++ '%' :: ['!']))
        Value.null none = ['a', '|', 'b'] ++ render_block ['!'] Value.null none :=
  default_keeps_pipes ['k'] ['a', '|', 'b'] ['!'] Value.null none
    (by decide) (by decide) (by decide) (by decide) (by decide) (by decide)

/-- C2 counterexample: the claim predicts that a template holding an
unterminated `%EACH` directive is emitted as raw text with scanning
continuing, but the scanning loop of `render_block` breaks instead: the
directive and the whole remainder are discarded and the render of
`"%EACH a"` is empty, not the template text. -/
theorem unterminated_each_not_emitted :
    render_block ('%' :: 'E' :: 'A' :: 'C' :: 'H' :: ' ' :: ['a']) Value.null none = []
    ∧ render_block ('%' :: 'E' :: 'A' :: 'C' :: 'H' :: ' ' :: ['a']) Value.null none
        ≠ '%' :: 'E' :: 'A' :: 'C' :: 'H' :: ' ' :: ['a'] := by
  constructor
  · decide
  · decide

/-- C2 amended: only a bare `%` with no later `%` degrades to literal text
with scanning continuing; an `%EACH` or `%IF` whose tag has no closing `%`,
or whose closing marker never occurs, instead stops the scan — the directive
and the entire remainder of the template contribute nothing. -/
theorem unterminated_directive_behavior :
    (∀ (root : Value) (lo : Option Value) (xs : List Char), '%' ∉ xs →
      eachOpen.isPrefixOf ('%' :: xs) = false → ifOpen.isPrefixOf ('%' :: xs) = false →
      render_block ('%' :: xs) root lo = '%' :: xs)
    ∧ (∀ (root : Value) (lo : Option Value) (xs : List Char), '%' ∉ xs →
      render_block (eachOpen ++ xs) root lo = [])
    ∧ (∀ (root : Value) (lo : Option Value) (tagtxt xs : List Char), '%' ∉ tagtxt →
      findSubstr endEach xs = none →
      render_block (eachOpen ++ (tagtxt ++ '%' :: xs)) root lo = [])
    ∧ (∀ (root : Value) (lo : Option Value) (xs : List Char), '%' ∉ xs →
      render_block (ifOpen ++ xs) root lo = [])
    ∧ (∀ (root : Value) (lo : Option Value) (tagtxt xs : List Char), '%' ∉ tagtxt →
      findSubstr endIf xs = none →
      render_block (ifOpen ++ (tagtxt ++ '%' :: xs)) root lo = []) := by
  refine ⟨?_, ?_, ?_, ?_, ?_⟩
  · intro root lo xs hx hE hI
    have h1 : pctPct.isPrefixOf ('%' :: xs) = false := by
      cases xs with
      | nil => rfl
      | cons a as =>
        have ha : ('%' == a) = false :=
          beq_eq_false_iff_ne.mpr (fun hh => hx (hh ▸ List.mem_cons_self a as))
        simp [pctPct, List.isPrefixOf_cons₂, ha]
    rw [render_block_eq, renderStep_subst _ _ _ _ h1 hE hI]
    simp only [pct]
    rw [findSubstr_not_mem '%' xs hx]
    rw [render_block_no_pct xs root lo hx]
  · intro root lo xs hx
    rw [show eachOpen ++ xs = '%' :: 'E' :: 'A' :: 'C' :: 'H' :: ' ' :: xs from rfl,
      render_block_eq, renderStep_each]
    simp only [pct]
    rw [findSubstr_not_mem '%' xs hx]
  · intro root lo tagtxt xs htag hnone
    rw [show eachOpen ++ (tagtxt ++ '%' :: xs)
        = '%' :: 'E' :: 'A' :: 'C' :: 'H' :: ' ' :: (tagtxt ++ '%' :: xs) from rfl,
      render_block_eq, renderStep_each]
    simp only [pct]
    split
    next h1 =>
      rfl
    next p h1 =>
      rw [findSubstr_singleton_append '%' tagtxt xs htag] at h1
      obtain rfl := Option.some.inj h1
      rw [append_cons_drop]
      split
      next h2 => rfl
      next e h2 =>
        rw [hnone] at h2
        simp at h2
  · intro root lo xs hx
    rw [show ifOpen ++ xs = '%' :: 'I' :: 'F' :: ' ' :: xs from rfl,
      render_block_eq, renderStep_ifdir]
    simp only [pct]
    rw [findSubstr_not_mem '%' xs hx]
  · intro root lo tagtxt xs htag hnone
    rw [show ifOpen ++ (tagtxt ++ '%' :: xs)
        = '%' :: 'I' :: 'F' :: ' ' :: (tagtxt ++ '%' :: xs) from rfl,
      render_block_eq, renderStep_ifdir]
    simp only [pct]
    split
    next h1 =>
      rfl
    next p h1 =>
      rw [findSubstr_singleton_append '%' tagtxt xs htag] at h1
      obtain rfl := Option.some.inj h1
      rw [append_cons_drop]
      split
      next h2 => rfl
      next e h2 =>
        rw [hnone] at h2
        simp at h2

/-- C2 amended witness: one concrete instance of each degraded behavior. -/
theorem unterminated_directive_behavior_witness :
    render_block ('%' :: [' ', 's']) Value.null none = '%' :: [' ', 's']
    ∧ render_block (eachOpen ++ ['a']) Value.null none = []
    ∧ render_block (eachOpen ++ (['a'] ++ '%' :: ['x'])) Value.null none = []
    ∧ render_block (ifOpen ++ ['a']) Value.null none = []
    ∧ render_block (ifOpen ++ (['a'] ++ '%' :: ['x'])) Value.null none = [] :=
  ⟨unterminated_directive_behavior.1 Value.null none [' ', 's']
      (by decide) (by decide) (by decide),
    unterminated_directive_behavior.2.1 Value.null none ['a'] (by decide),
    unterminated_directive_behavior.2.2.1 Value.null none ['a'] ['x']
      (by decide) (by decide),
    unterminated_directive_behavior.2.2.2.1 Value.null none ['a'] (by decide),
    unterminated_directive_behavior.2.2.2.2 Value.null none ['a'] ['x']
      (by decide) (by decide)⟩

/-- C5: resolution order of the two-tier scope lookup.  An empty key resolves
to nothing; with a local scope present, a successful member lookup in the
local value wins (local shadows root); otherwise the root's member lookup is
the result; member lookup itself returns nothing on every non-mapping value,
so a non-mapping local is never searched. -/
theorem resolve_semantics :
    (∀ (lo : Option Value) (root : Value), resolve lo root [] = none)
    ∧ (∀ (lv root : Value) (key : List Char) (v : Value), key ≠ [] →
        getMember lv key = some v → resolve (some lv) root key = some v)
    ∧ (∀ (lv root : Value) (key : List Char), key ≠ [] →
        getMember lv key = none → resolve (some lv) root key = getMember root key)
    ∧ (∀ (root : Value) (key : List Char), key ≠ [] →
        resolve none root key = getMember root key)
    ∧ (∀ (lv : Value) (key : List Char), (∀ fields, lv ≠ Value.obj fields) →
        getMember lv key = none) := by
  refine ⟨fun lo root => rfl, ?_, ?_, ?_, ?_⟩
  · intro lv root key v hk hget
    have hne : key.isEmpty = false := by
      cases key with
      | nil => exact absurd rfl hk
      | cons a as => rfl
    simp [resolve, hne, hget]
  · intro lv root key hk hget
    have hne : key.isEmpty = false := by
      cases key with
      | nil => exact absurd rfl hk
      | cons a as => rfl
    simp [resolve, hne, hget]
  · intro root key hk
    have hne : key.isEmpty = false := by
      cases key with
      | nil => exact absurd rfl hk
      | cons a as => rfl
    simp [resolve, hne, Option.bind]
  · intro lv key hobj
    cases lv with
    | obj fields => exact absurd rfl (hobj fields)
    | null => rfl
    | bool b => rfl
    | num n => rfl
    | str s => rfl
    | arr items => rfl

/-- C5 witness: the resolver at concrete inputs, exercising every conjunct. -/
theorem resolve_semantics_witness :
    resolve (some (Value.obj [(['a'], Value.num 1)])) (Value.obj [(['a'], Value.num 2)]) [] = none
    ∧ resolve (some (Value.obj [(['a'], Value.num 1)])) (Value.obj [(['a'], Value.num 2)]) ['a']
        = some (Value.num 1)
    ∧ resolve (some (Value.obj [(['a'], Value.num 1)])) (Value.obj [(['b'], Value.num 2)]) ['b']
        = some (Value.num 2)
    ∧ resolve none (Value.obj [(['b'], Value.num 2)]) ['b'] = some (Value.num 2)
    ∧ getMember (Value.str ['x']) ['b'] = none := by
  refine ⟨resolve_semantics.1 _ _, ?_, ?_, ?_, ?_⟩
  · exact resolve_semantics.2.1 _ _ ['a'] _ (by decide) rfl
  · exact (resolve_semantics.2.2.1 (Value.obj [(['a'], Value.num 1)])
      (Value.obj [(['b'], Value.num 2)]) ['b'] (by decide) rfl).trans rfl
  · exact (resolve_semantics.2.2.2.1 (Value.obj [(['b'], Value.num 2)]) ['b']
      (by decide)).trans rfl
  · exact resolve_semantics.2.2.2.2 (Value.str ['x']) ['b'] (fun fields h => by cases h)

/-- C6: the renderer always terminates and yields a string.  The fuel-indexed
interpreter `renderF` agrees with `render_block` as soon as its step budget
reaches the template length: every dispatch step of the scanning loop
consumes at least one character of the suffix it works on, so a nesting depth
of the template's length bounds the whole computation. -/
theorem render_terminates_with_linear_fuel (t : List Char) (root : Value)
    (lo : Option Value) (fuel : Nat) (h : t.length ≤ fuel) :
    renderF fuel t root lo = render_block t root lo :=
  renderF_stable fuel t root lo h

/-- C6 witness: a concrete template rendered with a larger fuel budget. -/
theorem render_terminates_with_linear_fuel_witness :
    (['a', '%', 'b', '%'] : List Char).length ≤ 9
    ∧ renderF 9 ['a', '%', 'b', '%'] Value.null none
        = render_block ['a', '%', 'b', '%'] Value.null none :=
  ⟨by decide, render_terminates_with_linear_fuel ['a', '%', 'b', '%'] Value.null none 9 (by decide)⟩

/-- C7: a template with no percent character renders to itself, for every
context. -/
theorem plain_text_identity (t : List Char) (ctx : Value) (h : '%' ∉ t) :
    render_template t ctx = t :=
  render_block_no_pct t ctx none h

/-- C7 witness: identity rendering of concrete plain text. -/
theorem plain_text_identity_witness :
    '%' ∉ (['h', 'i', ' ', '!'] : List Char)
    ∧ render_template ['h', 'i', ' ', '!'] (Value.obj [(['h'], Value.num 5)]) = ['h', 'i', ' ', '!'] :=
  ⟨by decide, plain_text_identity ['h', 'i', ' ', '!'] (Value.obj [(['h'], Value.num 5)]) (by decide)⟩

/-- C10: rendering is deterministic and pure.  It is a mathematical function
of the template and the context alone: equal inputs give equal outputs, and
the embedding's context value is immutable, so a render call never changes
it. -/
theorem render_deterministic (t1 t2 : List Char) (c1 c2 : Value)
    (ht : t1 = t2) (hc : c1 = c2) : render_template t1 c1 = render_template t2 c2 := by
  rw [ht, hc]

/-- C10 witness: determinism at a concrete template and context. -/
theorem render_deterministic_witness :
    (['x', '%', 'k', '%'] : List Char) = ['x', '%', 'k', '%']
    ∧ Value.null = Value.null
    ∧ render_template ['x', '%', 'k', '%'] Value.null
        = render_template ['x', '%', 'k', '%'] Value.null :=
  ⟨rfl, rfl, render_deterministic ['x', '%', 'k', '%'] ['x', '%', 'k', '%']
    Value.null Value.null rfl rfl⟩

end CmcTop
